import Mathlib

/-!
Verification of the heavy-output statistics engine of a Quantum Volume (QV)
protocol evaluator.  The repository's single source file is a notebook-style
script that orchestrates an external fitter object; the statistics engine
itself (heavy-set extraction, outcome aggregation, confidence estimation and
quantum-volume resolution) is the library logic the script calls into, and is
modelled here from the specification.  Probabilities are modelled as exact
rationals; measurement outcomes are bitstrings.
-/

namespace QV

/-- Error taxonomy of the engine (spec §7). -/
inductive QVError where
  | invalidDistribution
  | dimensionMismatch
  | duplicateTrial
  | missingIdealData
  | noData
  | insufficientData
  deriving DecidableEq, Repr

/-- An ideal distribution: a finite mapping from output bitstring to
probability, represented as an association list. -/
abbrev Dist := List (String × ℚ)

/-- The list of probability values of a distribution. -/
def probs (d : Dist) : List ℚ := d.map Prod.snd

/-- The total probability mass of a distribution. -/
def probSum (d : Dist) : ℚ := (probs d).sum

/-- Modelled from the spec: the tolerance (1e-6) within which the
probabilities of a distribution must sum to 1. -/
def tol : ℚ := 1 / 1000000

/-- Modelled from the spec: exact median of a list of probability values —
middle value for odd count, average of the two middle values for even
count. -/
def median (ps : List ℚ) : ℚ :=
  let s := ps.insertionSort (· ≤ ·)
  if ps.length % 2 = 1 then s.getD (ps.length / 2) 0
  else (s.getD (ps.length / 2 - 1) 0 + s.getD (ps.length / 2) 0) / 2

/-- The heavy-output bitstrings of a distribution: those whose probability is
strictly greater than the median of all probability values. -/
def heavyOf (d : Dist) : List String :=
  (d.filter (fun kp => decide (median (probs d) < kp.2))).map Prod.fst

/-- Normalization of a distribution: every probability is divided by the
total mass, so that the result sums to 1. -/
def normalize (d : Dist) : Dist :=
  d.map (fun kp => (kp.1, kp.2 / probSum d))

/-- Whether a distribution is malformed: some probability is negative, or the
probabilities do not sum to 1 within the tolerance. -/
def badDist (d : Dist) : Bool :=
  d.any (fun kp => decide (kp.2 < 0)) || decide (tol < |probSum d - 1|)

/-- Modelled from the spec: the Heavy-Set Extractor.  Validates the
distribution, normalizes it to sum to 1, and returns the bitstrings whose
probability is strictly greater than the median. -/
def extractHeavySet (d : Dist) : Except QVError (List String) :=
  if badDist d then .error .invalidDistribution
  else .ok (heavyOf (normalize d))

/-- Width-3 uniform scenario from the spec: 8 outcomes of probability 1/8. -/
def uniformDist8 : Dist :=
  [("000", 1/8), ("001", 1/8), ("010", 1/8), ("011", 1/8),
   ("100", 1/8), ("101", 1/8), ("110", 1/8), ("111", 1/8)]

/-- Width-2 scenario from the spec: probabilities 0.5, 0.2, 0.2, 0.1. -/
def exampleDist2 : Dist :=
  [("00", 1/2), ("01", 1/5), ("10", 1/5), ("11", 1/10)]

lemma mem_heavyOf {d : Dist} {b : String} :
    b ∈ heavyOf d ↔ ∃ p, (b, p) ∈ d ∧ median (probs d) < p := by
  simp only [heavyOf, List.mem_map, List.mem_filter, decide_eq_true_eq]
  constructor
  · rintro ⟨⟨a, p⟩, ⟨hmem, hlt⟩, rfl⟩
    exact ⟨p, hmem, hlt⟩
  · rintro ⟨p, hmem, hlt⟩
    exact ⟨(b, p), ⟨hmem, hlt⟩, rfl⟩

lemma orderedInsert_map_div (c : ℚ) (hc : 0 < c) (a : ℚ) :
    ∀ l : List ℚ,
      (l.map (· / c)).orderedInsert (· ≤ ·) (a / c) =
        (l.orderedInsert (· ≤ ·) a).map (· / c)
  | [] => rfl
  | b :: l => by
    simp only [List.map_cons, List.orderedInsert]
    by_cases h : a ≤ b
    · rw [if_pos ((div_le_div_iff_of_pos_right hc).mpr h), if_pos h]; simp
    · rw [if_neg (fun hh => h ((div_le_div_iff_of_pos_right hc).mp hh)), if_neg h,
        List.map_cons, orderedInsert_map_div c hc a l]

lemma insertionSort_map_div (c : ℚ) (hc : 0 < c) :
    ∀ l : List ℚ,
      (l.map (· / c)).insertionSort (· ≤ ·) =
        (l.insertionSort (· ≤ ·)).map (· / c)
  | [] => rfl
  | a :: l => by
    simp only [List.map_cons, List.insertionSort]
    rw [insertionSort_map_div c hc l, orderedInsert_map_div c hc a _]

lemma getD_map_div (c : ℚ) (l : List ℚ) (i : ℕ) (h : i < l.length) :
    (l.map (· / c)).getD i 0 = l.getD i 0 / c := by
  simp [List.getD, List.getElem?_map, List.getElem?_eq_getElem h]

lemma median_map_div (c : ℚ) (hc : 0 < c) (l : List ℚ) :
    median (l.map (· / c)) = median l / c := by
  rcases l with _ | ⟨a, l⟩
  · simp [median]
  · have hlen : (a :: l).length = l.length + 1 := rfl
    simp only [median, List.length_map, insertionSort_map_div c hc]
    have hslen : ((a :: l).insertionSort (· ≤ ·)).length = (a :: l).length :=
      List.length_insertionSort _ _
    by_cases hodd : (a :: l).length % 2 = 1
    · rw [if_pos hodd, if_pos hodd, getD_map_div]
      rw [hslen]; omega
    · rw [if_neg hodd, if_neg hodd, getD_map_div, getD_map_div]
      · ring
      · rw [hslen]; omega
      · rw [hslen]; omega

lemma probs_normalize (d : Dist) :
    probs (normalize d) = (probs d).map (· / probSum d) := by
  simp [probs, normalize, List.map_map, Function.comp_def]

lemma sum_map_div (c : ℚ) (l : List ℚ) : (l.map (· / c)).sum = l.sum / c := by
  induction l with
  | nil => simp
  | cons a l ih => simp [ih, add_div]

lemma mem_heavyOf_normalize (d : Dist) (hS : 0 < probSum d) (b : String) :
    b ∈ heavyOf (normalize d) ↔ b ∈ heavyOf d := by
  rw [mem_heavyOf, mem_heavyOf]
  constructor
  · rintro ⟨p, hmem, hlt⟩
    rw [normalize, List.mem_map] at hmem
    rcases hmem with ⟨⟨a, v⟩, hav, heq⟩
    have hb : a = b := congrArg Prod.fst heq
    have hp : v / probSum d = p := congrArg Prod.snd heq
    refine ⟨v, hb ▸ hav, ?_⟩
    rw [probs_normalize, median_map_div _ hS, ← hp] at hlt
    exact (div_lt_div_iff_of_pos_right hS).mp hlt
  · rintro ⟨p, hmem, hlt⟩
    refine ⟨p / probSum d, ?_, ?_⟩
    · rw [normalize, List.mem_map]
      exact ⟨(b, p), hmem, rfl⟩
    · rw [probs_normalize, median_map_div _ hS]
      exact (div_lt_div_iff_of_pos_right hS).mpr hlt

lemma probSum_pos_of_not_bad {d : Dist} (h : badDist d = false) : 0 < probSum d := by
  have habs : ¬(tol < |probSum d - 1|) := by
    intro hlt
    simp [badDist, hlt] at h
  have := abs_le.mp (not_lt.mp habs)
  have htol : tol = 1 / 1000000 := rfl
  nlinarith [this.1, this.2]

/-- C1: for every distribution accepted by the Heavy-Set Extractor, the heavy
set contains exactly the bitstrings whose probability is strictly greater
than the exact median of all probability values; in particular the uniform
width-3 distribution has an empty heavy set and the width-2 distribution
with probabilities 0.5, 0.2, 0.2, 0.1 has heavy set exactly `"00"`. -/
theorem heavy_set_exactly_above_median :
    (∀ (d : Dist) (hs : List String), extractHeavySet d = .ok hs →
      ∀ b, b ∈ hs ↔ ∃ p, (b, p) ∈ d ∧ median (probs d) < p)
    ∧ extractHeavySet uniformDist8 = .ok []
    ∧ extractHeavySet exampleDist2 = .ok ["00"] := by
  refine ⟨?_, ?_, ?_⟩
  · intro d hs h b
    rw [extractHeavySet] at h
    by_cases hbad : badDist d
    · rw [if_pos hbad] at h; cases h
    · rw [if_neg hbad] at h
      have hhs : hs = heavyOf (normalize d) := by
        cases h; rfl
      have hS : 0 < probSum d := probSum_pos_of_not_bad (by simpa using hbad)
      rw [hhs, mem_heavyOf_normalize d hS, mem_heavyOf]
  · norm_num [extractHeavySet, badDist, heavyOf, normalize, median, probs, probSum, tol,
      uniformDist8, List.insertionSort, List.orderedInsert, List.filter, List.any,
      List.getD, List.sum_cons]
  · norm_num [extractHeavySet, badDist, heavyOf, normalize, median, probs, probSum, tol,
      exampleDist2, List.insertionSort, List.orderedInsert, List.filter, List.any,
      List.getD, List.sum_cons]

/-- Witness for C1: the characterization instantiated at the concrete width-2
distribution, with the extractor hypothesis discharged by evaluation. -/
theorem heavy_set_exactly_above_median_witness :
    "00" ∈ ["00"] ↔
      ∃ p, (("00" : String), p) ∈ exampleDist2 ∧ median (probs exampleDist2) < p :=
  heavy_set_exactly_above_median.1 exampleDist2 ["00"]
    heavy_set_exactly_above_median.2.2 "00"

lemma badDist_iff (d : Dist) :
    badDist d = true ↔ ((∃ kp ∈ d, kp.2 < 0) ∨ tol < |probSum d - 1|) := by
  simp [badDist]

/-- C7: the Heavy-Set Extractor fails with `InvalidDistributionError` exactly
when some probability is negative or the probabilities do not sum to 1
within the tolerance 1e-6; on accepted inputs it normalizes the
probabilities to sum to 1 before computing the median and the heavy set. -/
theorem extract_invalid_iff_malformed :
    (∀ d : Dist, extractHeavySet d = .error .invalidDistribution ↔
      ((∃ kp ∈ d, kp.2 < 0) ∨ tol < |probSum d - 1|))
    ∧ (∀ d : Dist, ¬((∃ kp ∈ d, kp.2 < 0) ∨ tol < |probSum d - 1|) →
      probSum (normalize d) = 1 ∧ extractHeavySet d = .ok (heavyOf (normalize d))) := by
  constructor
  · intro d
    rw [← badDist_iff, extractHeavySet]
    by_cases hbad : badDist d
    · simp [hbad]
    · simp [hbad]
  · intro d hgood
    have hbad : badDist d = false := by
      rw [Bool.eq_false_iff]
      intro h
      exact hgood ((badDist_iff d).mp h)
    have hS : 0 < probSum d := probSum_pos_of_not_bad hbad
    constructor
    · rw [probSum, probs_normalize, sum_map_div, ← probSum]
      exact div_self (ne_of_gt hS)
    · rw [extractHeavySet, if_neg (by simp [hbad])]

/-- Witness for C7: the acceptance branch instantiated at the concrete
uniform width-3 distribution. -/
theorem extract_invalid_iff_malformed_witness :
    probSum (normalize uniformDist8) = 1 ∧
      extractHeavySet uniformDist8 = .ok (heavyOf (normalize uniformDist8)) :=
  extract_invalid_iff_malformed.2 uniformDist8 (by
    push_neg
    constructor
    · intro kp hkp
      simp only [uniformDist8, List.mem_cons, List.not_mem_nil, or_false] at hkp
      rcases hkp with h | h | h | h | h | h | h | h <;> rw [h] <;> norm_num
    · norm_num [probSum, probs, uniformDist8, tol])

/-- Modelled from the spec: the mutable state of the Outcome Aggregator —
registered heavy sets per (width, trial) key, and the Running Statistics per
width (cumulative heavy shots, cumulative total shots, trials processed). -/
structure QVState where
  heavySets : ℕ → ℕ → Option (List String)
  heavyCount : ℕ → ℕ
  totalCount : ℕ → ℕ
  trialCount : ℕ → ℕ

/-- The freshly initialized engine: nothing registered, all statistics 0. -/
def initState : QVState :=
  ⟨fun _ _ => none, fun _ => 0, fun _ => 0, fun _ => 0⟩

/-- Modelled from the spec: registers the heavy set for a (width, trial) key;
fails with `DuplicateTrialError` if already registered, unless overwrite is
requested. -/
def add_ideal (w t : ℕ) (hs : List String) (overwrite : Bool) (st : QVState) :
    Except QVError QVState :=
  match st.heavySets w t with
  | some _ =>
    if overwrite then
      .ok { st with heavySets := fun a b => if a = w ∧ b = t then some hs else st.heavySets a b }
    else .error .duplicateTrial
  | none =>
    .ok { st with heavySets := fun a b => if a = w ∧ b = t then some hs else st.heavySets a b }

/-- Total number of shots in an experimental count histogram. -/
def countsTotal (counts : List (String × ℕ)) : ℕ :=
  (counts.map Prod.snd).sum

/-- Number of shots in a count histogram that fall on heavy bitstrings. -/
def countsHeavy (hs : List String) (counts : List (String × ℕ)) : ℕ :=
  ((counts.filter (fun kp => decide (kp.1 ∈ hs))).map Prod.snd).sum

/-- Modelled from the spec: adds an experimental count histogram for a
(width, trial) key.  Counts of heavy bitstrings are added to the running
heavy-shot tally of the width, all counts to the running total-shot tally;
repeated calls accumulate.  Fails with `MissingIdealDataError` when no heavy
set is registered for the key. -/
def add_experimental (w t : ℕ) (counts : List (String × ℕ)) (st : QVState) :
    Except QVError QVState :=
  match st.heavySets w t with
  | none => .error .missingIdealData
  | some hs =>
    .ok { st with
      heavyCount := fun a => if a = w then st.heavyCount w + countsHeavy hs counts else st.heavyCount a
      totalCount := fun a => if a = w then st.totalCount w + countsTotal counts else st.totalCount a
      trialCount := fun a => if a = w then st.trialCount w + 1 else st.trialCount a }

/-- The running mean heavy-output fraction of a width. -/
def meanFraction (st : QVState) (w : ℕ) : ℚ :=
  (st.heavyCount w : ℚ) / (st.totalCount w : ℚ)

/-- Modelled from the spec: returns the current (heavy_count, total_count,
mean_fraction) of a width; fails with `NoDataError` when total_count is 0. -/
def get_statistics (w : ℕ) (st : QVState) : Except QVError (ℕ × ℕ × ℚ) :=
  if st.totalCount w = 0 then .error .noData
  else .ok (st.heavyCount w, st.totalCount w, meanFraction st w)

/-- An operation on the aggregator state. -/
inductive QVOp where
  | ideal (w t : ℕ) (hs : List String) (overwrite : Bool)
  | experimental (w t : ℕ) (counts : List (String × ℕ))

/-- Applies an operation; on error the state is left unchanged (an exception
propagates to the caller without mutating the engine). -/
def applyOp (st : QVState) (op : QVOp) : QVState :=
  match op with
  | .ideal w t hs ov =>
    match add_ideal w t hs ov st with
    | .ok st₁ => st₁
    | .error _ => st
  | .experimental w t counts =>
    match add_experimental w t counts st with
    | .ok st₁ => st₁
    | .error _ => st

/-- Runs a sequence of aggregator operations. -/
def runOps (ops : List QVOp) (st : QVState) : QVState :=
  ops.foldl applyOp st

lemma applyOp_heavyCount_le (st : QVState) (op : QVOp) (w : ℕ) :
    st.heavyCount w ≤ (applyOp st op).heavyCount w ∧
      st.totalCount w ≤ (applyOp st op).totalCount w := by
  rcases op with ⟨a, b, hs, ov⟩ | ⟨a, b, counts⟩
  · rw [applyOp, add_ideal]
    rcases h : st.heavySets a b with _ | hs₀ <;> rcases ov <;> simp
  · rw [applyOp, add_experimental]
    rcases h : st.heavySets a b with _ | hs₀
    · simp
    · by_cases hw : w = a
      · subst hw; simp
      · simp [hw]

/-- C5: across any sequence of aggregator operations, the per-width running
statistics heavy_count and total_count never decrease — no operation other
than starting from a fresh `initState` resets them. -/
theorem running_stats_monotone (ops : List QVOp) (st : QVState) (w : ℕ) :
    st.heavyCount w ≤ (runOps ops st).heavyCount w ∧
      st.totalCount w ≤ (runOps ops st).totalCount w := by
  induction ops generalizing st with
  | nil => exact ⟨le_refl _, le_refl _⟩
  | cons op ops ih =>
    have h₁ := applyOp_heavyCount_le st op w
    have h₂ := ih (applyOp st op)
    exact ⟨le_trans h₁.1 h₂.1, le_trans h₁.2 h₂.2⟩

/-- C4: with a heavy set registered for a key, two `add_experimental` calls
with counts A:5 and then A:3 accumulate by summation — the total-count
contribution is 8, and the heavy-shot tally grows by 8 exactly when A is in
the heavy set (sum, not overwrite). -/
theorem add_experimental_accumulates (st : QVState) (w t : ℕ) (A : String)
    (hs : List String) (hreg : st.heavySets w t = some hs) :
    (applyOp (applyOp st (.experimental w t [(A, 5)])) (.experimental w t [(A, 3)])).totalCount w
        = st.totalCount w + 8 ∧
      (applyOp (applyOp st (.experimental w t [(A, 5)])) (.experimental w t [(A, 3)])).heavyCount w
        = st.heavyCount w + (if A ∈ hs then 8 else 0) := by
  have h₁ : applyOp st (.experimental w t [(A, 5)]) =
      { st with
        heavyCount := fun a => if a = w then st.heavyCount w + countsHeavy hs [(A, 5)] else st.heavyCount a
        totalCount := fun a => if a = w then st.totalCount w + countsTotal [(A, 5)] else st.totalCount a
        trialCount := fun a => if a = w then st.trialCount w + 1 else st.trialCount a } := by
    rw [applyOp, add_experimental, hreg]
  rw [h₁, applyOp, add_experimental]
  simp only [hreg]
  by_cases hA : A ∈ hs
  · simp [countsHeavy, countsTotal, List.filter, hA]
  · simp [countsHeavy, countsTotal, List.filter, hA]

/-- Witness for C4: concrete accumulation after registering heavy set
`["00"]` at key (0, 0), with A = "00". -/
theorem add_experimental_accumulates_witness :
    (applyOp (applyOp (applyOp initState (.ideal 0 0 ["00"] false))
          (.experimental 0 0 [("00", 5)])) (.experimental 0 0 [("00", 3)])).totalCount 0
        = (applyOp initState (.ideal 0 0 ["00"] false)).totalCount 0 + 8 ∧
      (applyOp (applyOp (applyOp initState (.ideal 0 0 ["00"] false))
          (.experimental 0 0 [("00", 5)])) (.experimental 0 0 [("00", 3)])).heavyCount 0
        = (applyOp initState (.ideal 0 0 ["00"] false)).heavyCount 0 +
            (if "00" ∈ ["00"] then 8 else 0) :=
  add_experimental_accumulates (applyOp initState (.ideal 0 0 ["00"] false)) 0 0 "00" ["00"] rfl

/-- C6: submitting experimental data for a (width, trial) key with no
registered heavy set fails synchronously with `MissingIdealDataError`, and
the offending call leaves the engine state unchanged (no internal retry). -/
theorem add_experimental_missing_ideal (st : QVState) (w t : ℕ)
    (counts : List (String × ℕ)) (hnone : st.heavySets w t = none) :
    add_experimental w t counts st = .error .missingIdealData ∧
      applyOp st (.experimental w t counts) = st := by
  constructor
  · rw [add_experimental, hnone]
  · rw [applyOp, add_experimental, hnone]

/-- Witness for C6: the fresh engine has no heavy set at key (0, 0), so the
first experimental submission fails there. -/
theorem add_experimental_missing_ideal_witness :
    add_experimental 0 0 [("00", 5)] initState = .error .missingIdealData ∧
      applyOp initState (.experimental 0 0 [("00", 5)]) = initState :=
  add_experimental_missing_ideal initState 0 0 [("00", 5)] rfl

/-- Runs a sequence of experimental submissions, each given as a
(width, trial, counts) triple. -/
def runExperiments (ops : List (ℕ × ℕ × List (String × ℕ))) (st : QVState) : QVState :=
  runOps (ops.map (fun o => .experimental o.1 o.2.1 o.2.2)) st

lemma countsHeavy_eq_total {hs : List String} :
    ∀ {counts : List (String × ℕ)}, (∀ kp ∈ counts, 0 < kp.2 → kp.1 ∈ hs) →
      countsHeavy hs counts = countsTotal counts := by
  intro counts
  induction counts with
  | nil => intro _; rfl
  | cons kp counts ih =>
    intro h
    have hrest := ih (fun kq hq => h kq (List.mem_cons_of_mem kp hq))
    by_cases hmem : kp.1 ∈ hs
    · simp [countsHeavy, countsTotal, List.filter, hmem] at hrest ⊢
      omega
    · have hz : kp.2 = 0 := by
        by_contra hnz
        exact hmem (h kp (List.mem_cons_self kp counts) (Nat.pos_of_ne_zero hnz))
      simp [countsHeavy, countsTotal, List.filter, hmem, hz] at hrest ⊢
      exact hrest

lemma applyOp_experimental_heavySets (st : QVState) (w t : ℕ)
    (c : List (String × ℕ)) :
    (applyOp st (.experimental w t c)).heavySets = st.heavySets := by
  cases hreg : st.heavySets w t with
  | none => simp [applyOp, add_experimental, hreg]
  | some hs => simp [applyOp, add_experimental, hreg]

lemma applyOp_experimental_invariant (st : QVState) (w' t : ℕ)
    (c : List (String × ℕ)) (w : ℕ)
    (h : ∀ kp ∈ c, 0 < kp.2 → kp.1 ∈ (st.heavySets w' t).getD [])
    (hinv : st.heavyCount w = st.totalCount w) :
    (applyOp st (.experimental w' t c)).heavyCount w =
      (applyOp st (.experimental w' t c)).totalCount w := by
  cases hreg : st.heavySets w' t with
  | none => simp [applyOp, add_experimental, hreg, hinv]
  | some hs =>
    have hct : countsHeavy hs c = countsTotal c := by
      refine countsHeavy_eq_total ?_
      intro kp hk hp
      have := h kp hk hp
      rw [hreg] at this
      simpa using this
    by_cases hw : w = w'
    · subst hw
      simp [applyOp, add_experimental, hreg, hinv, hct]
    · simp [applyOp, add_experimental, hreg, hw, hinv]

lemma runExperiments_invariant (ops : List (ℕ × ℕ × List (String × ℕ)))
    (st : QVState) (w : ℕ)
    (hsupp : ∀ o ∈ ops, ∀ kp ∈ o.2.2, 0 < kp.2 → kp.1 ∈ (st.heavySets o.1 o.2.1).getD [])
    (hinit : st.heavyCount w = st.totalCount w) :
    (runExperiments ops st).heavyCount w = (runExperiments ops st).totalCount w := by
  induction ops generalizing st with
  | nil => exact hinit
  | cons o ops ih =>
    have hstep := applyOp_experimental_invariant st o.1 o.2.1 o.2.2 w
      (hsupp o (List.mem_cons_self o ops)) hinit
    have hpres := applyOp_experimental_heavySets st o.1 o.2.1 o.2.2
    have hrest : ∀ p ∈ ops, ∀ kp ∈ p.2.2, 0 < kp.2 →
        kp.1 ∈ ((applyOp st (.experimental o.1 o.2.1 o.2.2)).heavySets p.1 p.2.1).getD [] := by
      intro p hp kp hk hpos
      rw [hpres]
      exact hsupp p (List.mem_cons_of_mem o hp) kp hk hpos
    have := ih (applyOp st (.experimental o.1 o.2.1 o.2.2)) hrest hstep
    simpa [runExperiments, runOps] using this

/-- C8: if every experimental count submission places all (positive) shots on
bitstrings of the registered heavy set of its trial, then the heavy tally
equals the total tally, and `get_statistics` reports mean_fraction = 1 for
the width. -/
theorem round_trip_mean_fraction_one (ops : List (ℕ × ℕ × List (String × ℕ)))
    (st : QVState) (w : ℕ)
    (hsupp : ∀ o ∈ ops, ∀ kp ∈ o.2.2, 0 < kp.2 → kp.1 ∈ (st.heavySets o.1 o.2.1).getD [])
    (hinit : st.heavyCount w = st.totalCount w) :
    (runExperiments ops st).heavyCount w = (runExperiments ops st).totalCount w ∧
      (0 < (runExperiments ops st).totalCount w →
        get_statistics w (runExperiments ops st) =
          .ok ((runExperiments ops st).totalCount w, (runExperiments ops st).totalCount w, 1)) := by
  have heq := runExperiments_invariant ops st w hsupp hinit
  refine ⟨heq, ?_⟩
  intro hpos
  rw [get_statistics, if_neg (Nat.pos_iff_ne_zero.mp hpos), heq, meanFraction, heq]
  rw [div_self (by exact_mod_cast Nat.pos_iff_ne_zero.mp hpos)]

/-- Witness for C8: heavy set `["1"]` registered at key (0, 0), a perfect
4-shot result on "1" yields statistics (4, 4, 1). -/
theorem round_trip_mean_fraction_one_witness :
    (runExperiments [(0, 0, [("1", 4)])] (applyOp initState (.ideal 0 0 ["1"] false))).heavyCount 0 =
        (runExperiments [(0, 0, [("1", 4)])] (applyOp initState (.ideal 0 0 ["1"] false))).totalCount 0 ∧
      (0 < (runExperiments [(0, 0, [("1", 4)])] (applyOp initState (.ideal 0 0 ["1"] false))).totalCount 0 →
        get_statistics 0 (runExperiments [(0, 0, [("1", 4)])] (applyOp initState (.ideal 0 0 ["1"] false))) =
          .ok ((runExperiments [(0, 0, [("1", 4)])] (applyOp initState (.ideal 0 0 ["1"] false))).totalCount 0,
            (runExperiments [(0, 0, [("1", 4)])] (applyOp initState (.ideal 0 0 ["1"] false))).totalCount 0, 1)) :=
  round_trip_mean_fraction_one [(0, 0, [("1", 4)])]
    (applyOp initState (.ideal 0 0 ["1"] false)) 0
    (by
      intro o ho kp hk hpos
      simp only [List.mem_cons, List.not_mem_nil, or_false] at ho
      subst ho
      simp only [List.mem_cons, List.not_mem_nil, or_false] at hk
      subst hk
      simp [applyOp, add_ideal, initState])
    rfl

/-- Modelled from the spec: the square of sigma — the sample variance of the
mean heavy-output fraction over num_trials, adjusted by the finite-population
correction factor total_count/(total_count - 1).  Working with the square
keeps the pass decision exactly computable over the rationals. -/
def sigmaSq (st : QVState) (w : ℕ) : ℚ :=
  meanFraction st w * (1 - meanFraction st w) / (st.trialCount w : ℚ) *
    ((st.totalCount w : ℚ) / ((st.totalCount w : ℚ) - 1))

/-- Modelled from the spec: the nominal confidence level achieved by the
fixed z = 2 one-sided bound, the normal CDF at 2, approximately 0.977. -/
def confidenceLevel : ℚ := 977 / 1000

/-- Modelled from the spec: the pass decision for a width — mean_fraction
must exceed 2/3 and the one-sided lower bound mean_fraction - 2·sigma must
exceed 2/3 (the z = 2 bound, whose implied confidence 0.977 meets the 0.975
requirement).  The sigma comparison is phrased on squares so that it is
exact over ℚ. -/
def qv_pass (st : QVState) (w : ℕ) : Bool :=
  decide ((2 : ℚ)/3 < meanFraction st w) &&
    decide (4 * sigmaSq st w < (meanFraction st w - 2/3)^2)

/-- Modelled from the spec: the Confidence Estimator — fails with
`InsufficientDataError` when total_count ≤ 1 (sigma undefined), otherwise
returns the pass decision and the nominal confidence level. -/
def qv_success (st : QVState) (w : ℕ) : Except QVError (Bool × ℚ) :=
  if st.totalCount w ≤ 1 then .error .insufficientData
  else .ok (qv_pass st w, confidenceLevel)

/-- C2: for a width with total_count > 1, the Confidence Estimator declares
the width passing exactly when mean_fraction > 2/3 and the one-sided lower
bound mean_fraction - z·sigma with z = 2 still exceeds the 2/3 threshold
(so that the implied confidence 0.977 of the bound meets 0.975), where
sigma = sqrt(mean_fraction·(1 - mean_fraction)/num_trials) multiplied by
the finite-population correction sqrt(total_count/(total_count - 1)). -/
theorem confidence_estimator_pass_iff (st : QVState) (w : ℕ)
    (htc : 1 < st.totalCount w) (_hnt : 0 < st.trialCount w) :
    qv_success st w = .ok (qv_pass st w, confidenceLevel) ∧
      (qv_pass st w = true ↔
        (2/3 < meanFraction st w ∧
          2/3 < (meanFraction st w : ℝ) -
            2 * Real.sqrt ((meanFraction st w : ℝ) * (1 - (meanFraction st w : ℝ)) /
                (st.trialCount w : ℝ) *
              ((st.totalCount w : ℝ) / ((st.totalCount w : ℝ) - 1))))) := by
  constructor
  · rw [qv_success, if_neg (by omega)]
  · rw [qv_pass, Bool.and_eq_true, decide_eq_true_eq, decide_eq_true_eq]
    refine and_congr_right fun h23 => ?_
    have hm : (2 : ℝ)/3 < (meanFraction st w : ℝ) := by
      have := (Rat.cast_lt (K := ℝ)).mpr h23
      push_cast at this
      exact this
    have hcast : ((sigmaSq st w : ℚ) : ℝ) =
        (meanFraction st w : ℝ) * (1 - (meanFraction st w : ℝ)) /
            (st.trialCount w : ℝ) *
          ((st.totalCount w : ℝ) / ((st.totalCount w : ℝ) - 1)) := by
      rw [sigmaSq]
      push_cast
      ring
    rw [← hcast]
    have hq : (4 * sigmaSq st w < (meanFraction st w - 2/3)^2) ↔
        (4 * ((sigmaSq st w : ℚ) : ℝ) < ((meanFraction st w : ℝ) - 2/3)^2) := by
      rw [show ((meanFraction st w : ℝ) - 2/3)^2 = (((meanFraction st w - 2/3)^2 : ℚ) : ℝ) by
        push_cast; ring]
      rw [show (4 * ((sigmaSq st w : ℚ) : ℝ)) = ((4 * sigmaSq st w : ℚ) : ℝ) by push_cast; ring]
      exact (Rat.cast_lt (K := ℝ)).symm
    rw [hq]
    have hsqrt : Real.sqrt (4 * ((sigmaSq st w : ℚ) : ℝ)) =
        2 * Real.sqrt ((sigmaSq st w : ℚ) : ℝ) := by
      rw [show (4 * ((sigmaSq st w : ℚ) : ℝ)) = 4 * ((sigmaSq st w : ℚ) : ℝ) from rfl,
        Real.sqrt_mul (by norm_num : (0:ℝ) ≤ 4),
        show Real.sqrt 4 = 2 by
          rw [show (4:ℝ) = 2^2 by norm_num, Real.sqrt_sq (by norm_num : (0:ℝ) ≤ 2)]]
    have hlt := Real.sqrt_lt' (x := 4 * ((sigmaSq st w : ℚ) : ℝ))
      (y := (meanFraction st w : ℝ) - 2/3) (by linarith)
    rw [hsqrt] at hlt
    constructor
    · intro h
      have := hlt.mpr h
      linarith
    · intro h
      exact hlt.mp (by linarith)

/-- Witness for C2: a width with 8 heavy shots out of 9 over 16 trials has
sigma = 1/12 exactly and passes. -/
theorem confidence_estimator_pass_iff_witness :
    (1 < (QVState.mk (fun _ _ => none) (fun _ => 8) (fun _ => 9) (fun _ => 16)).totalCount 0) ∧
      (qv_success (QVState.mk (fun _ _ => none) (fun _ => 8) (fun _ => 9) (fun _ => 16)) 0 =
          .ok (qv_pass (QVState.mk (fun _ _ => none) (fun _ => 8) (fun _ => 9) (fun _ => 16)) 0,
            confidenceLevel) ∧
        (qv_pass (QVState.mk (fun _ _ => none) (fun _ => 8) (fun _ => 9) (fun _ => 16)) 0 = true ↔
          (2/3 < meanFraction (QVState.mk (fun _ _ => none) (fun _ => 8) (fun _ => 9) (fun _ => 16)) 0 ∧
            2/3 < (meanFraction (QVState.mk (fun _ _ => none) (fun _ => 8) (fun _ => 9) (fun _ => 16)) 0 : ℝ) -
              2 * Real.sqrt ((meanFraction (QVState.mk (fun _ _ => none) (fun _ => 8) (fun _ => 9) (fun _ => 16)) 0 : ℝ) *
                  (1 - (meanFraction (QVState.mk (fun _ _ => none) (fun _ => 8) (fun _ => 9) (fun _ => 16)) 0 : ℝ)) /
                  ((QVState.mk (fun _ _ => none) (fun _ => 8) (fun _ => 9) (fun _ => 16)).trialCount 0 : ℝ) *
                (((QVState.mk (fun _ _ => none) (fun _ => 8) (fun _ => 9) (fun _ => 16)).totalCount 0 : ℝ) /
                  (((QVState.mk (fun _ _ => none) (fun _ => 8) (fun _ => 9) (fun _ => 16)).totalCount 0 : ℝ) - 1)))))) :=
  ⟨by decide,
    confidence_estimator_pass_iff
      (QVState.mk (fun _ _ => none) (fun _ => 8) (fun _ => 9) (fun _ => 16)) 0
      (by decide) (by decide)⟩

/-- Maximum of a list of naturals (0 for the empty list). -/
def listMax (l : List ℕ) : ℕ := l.foldr max 0

/-- The widths of a configuration that pass the per-width test. -/
def passingWidths (widths : List ℕ) (st : QVState) : List ℕ :=
  widths.filter (fun w => qv_pass st w)

/-- Modelled from the spec: the per-width report of the Quantum Volume
Resolver — mean_fraction, the pass/fail boolean, the confidence value, and,
when passing, the quantum-volume contribution 2^width. -/
def widthReport (st : QVState) (w : ℕ) : ℚ × Bool × ℚ × Option ℕ :=
  (meanFraction st w, qv_pass st w, confidenceLevel,
    if qv_pass st w then some (2^w) else none)

/-- Modelled from the spec: the achieved quantum volume, 2^w for the largest
width w whose per-width test passes (none when no width passes). -/
def achievedQV (widths : List ℕ) (st : QVState) : Option ℕ :=
  if passingWidths widths st = [] then none
  else some (2 ^ listMax (passingWidths widths st))

lemma le_listMax {l : List ℕ} {x : ℕ} (hx : x ∈ l) : x ≤ listMax l := by
  induction l with
  | nil => cases hx
  | cons a l ih =>
    rcases List.mem_cons.mp hx with rfl | hx₁
    · exact le_max_left _ _
    · exact le_trans (ih hx₁) (le_max_right _ _)

lemma listMax_mem {l : List ℕ} (h : l ≠ []) : listMax l ∈ l := by
  induction l with
  | nil => exact absurd rfl h
  | cons a l ih =>
    rcases l with _ | ⟨b, l⟩
    · simp [listMax]
    · have hfold : listMax (a :: b :: l) = max a (listMax (b :: l)) := rfl
      rcases max_choice a (listMax (b :: l)) with hm | hm
      · rw [hfold, hm]
        exact List.mem_cons_self _ _
      · rw [hfold, hm]
        exact List.mem_cons_of_mem a (ih (by simp))

/-- A statistics state in which width 3 fails the test but width 4 passes:
per-width pass/fail is independent. -/
def independenceState : QVState :=
  QVState.mk (fun _ _ => none) (fun w => if w = 4 then 8 else 1) (fun _ => 9) (fun _ => 16)

lemma qv_pass_independenceState_3 : qv_pass independenceState 3 = false := by
  rw [qv_pass, decide_eq_false, Bool.false_and]
  norm_num [meanFraction, independenceState]

lemma qv_pass_independenceState_4 : qv_pass independenceState 4 = true := by
  rw [qv_pass, Bool.and_eq_true, decide_eq_true_eq, decide_eq_true_eq]
  constructor
  · norm_num [meanFraction, independenceState]
  · norm_num [meanFraction, sigmaSq, independenceState]

/-- C3: the achieved quantum volume is 2^w for the largest passing width,
each width's pass/fail being evaluated independently (width 3 can fail while
width 4 passes, as `independenceState` shows), and the per-width report
carries mean_fraction, the pass/fail boolean, the confidence value, and the
contribution 2^width when passing. -/
theorem quantum_volume_resolver :
    (∀ (widths : List ℕ) (st : QVState) (q : ℕ),
      achievedQV widths st = some q ↔
        ∃ w, w ∈ widths ∧ qv_pass st w = true ∧ q = 2^w ∧
          ∀ v, v ∈ widths → qv_pass st v = true → v ≤ w)
    ∧ (∀ (st : QVState) (w : ℕ), widthReport st w =
        (meanFraction st w, qv_pass st w, confidenceLevel,
          if qv_pass st w = true then some (2^w) else none))
    ∧ (qv_pass independenceState 3 = false ∧ qv_pass independenceState 4 = true ∧
        achievedQV [3, 4] independenceState = some 16) := by
  refine ⟨?_, fun st w => rfl, qv_pass_independenceState_3, qv_pass_independenceState_4, ?_⟩
  · intro widths st q
    rw [achievedQV]
    by_cases hemp : passingWidths widths st = []
    · rw [if_pos hemp]
      constructor
      · intro h; cases h
      · rintro ⟨w, hw, hpass, _, _⟩
        have : w ∈ passingWidths widths st := by
          rw [passingWidths, List.mem_filter]
          exact ⟨hw, hpass⟩
        rw [hemp] at this
        cases this
    · rw [if_neg hemp]
      have hmax := listMax_mem hemp
      rw [passingWidths, List.mem_filter] at hmax
      constructor
      · intro h
        have hq : q = 2 ^ listMax (passingWidths widths st) := (Option.some_inj.mp h).symm
        refine ⟨listMax (passingWidths widths st), hmax.1, hmax.2, hq, ?_⟩
        intro v hv hvpass
        exact le_listMax (by rw [passingWidths, List.mem_filter]; exact ⟨hv, hvpass⟩)
      · rintro ⟨w, hw, hpass, hq, hmaximal⟩
        have hwmem : w ∈ passingWidths widths st := by
          rw [passingWidths, List.mem_filter]
          exact ⟨hw, hpass⟩
        have h₁ : w ≤ listMax (passingWidths widths st) := le_listMax hwmem
        have h₂ : listMax (passingWidths widths st) ≤ w := hmaximal _ hmax.1 hmax.2
        rw [hq, le_antisymm h₁ h₂]
  · rw [achievedQV, show passingWidths [3, 4] independenceState = [4] by
      simp [passingWidths, List.filter, qv_pass_independenceState_3, qv_pass_independenceState_4]]
    rw [if_neg (by simp)]
    rfl

/-- Witness for C3: the largest-passing-width characterization instantiated
at the two-width configuration over `independenceState`. -/
theorem quantum_volume_resolver_witness :
    achievedQV [3, 4] independenceState = some 16 ↔
      ∃ w, w ∈ [3, 4] ∧ qv_pass independenceState w = true ∧ 16 = 2^w ∧
        ∀ v, v ∈ [3, 4] → qv_pass independenceState v = true → v ≤ w :=
  quantum_volume_resolver.1 [3, 4] independenceState 16

/-- Squared magnitude of a complex amplitude, given by its real and
imaginary parts. -/
def normSq (a : ℚ × ℚ) : ℚ := a.1^2 + a.2^2

/-- Complex multiplication by a phase factor z. -/
def phaseMul (z a : ℚ × ℚ) : ℚ × ℚ :=
  (z.1 * a.1 - z.2 * a.2, z.1 * a.2 + z.2 * a.1)

/-- The w-bit binary string of basis-state index i (most significant bit
first). -/
def toBitstring (w i : ℕ) : String :=
  String.mk ((List.range w).map (fun j => if i.testBit (w - 1 - j) then '1' else '0'))

/-- The distribution read off an amplitude vector starting at basis index i:
probability = squared magnitude per basis state. -/
def distOfAmps (w : ℕ) : ℕ → List (ℚ × ℚ) → Dist
  | _, [] => []
  | i, a :: v => (toBitstring w i, normSq a) :: distOfAmps w (i + 1) v

/-- Modelled from the spec: the Distribution Source Adapter on a state
amplitude vector — fails with `DimensionMismatchError` when the vector
length is not 2^width, otherwise produces probability = squared magnitude
per basis state. -/
def amplitudesToDist (w : ℕ) (v : List (ℚ × ℚ)) : Except QVError Dist :=
  if v.length = 2^w then .ok (distOfAmps w 0 v) else .error .dimensionMismatch

lemma normSq_phaseMul (z a : ℚ × ℚ) : normSq (phaseMul z a) = normSq z * normSq a := by
  rcases z with ⟨x, y⟩
  rcases a with ⟨u, t⟩
  simp only [normSq, phaseMul]
  ring

lemma distOfAmps_map_phase (w : ℕ) (z : ℚ × ℚ) (hz : normSq z = 1) :
    ∀ (i : ℕ) (v : List (ℚ × ℚ)),
      distOfAmps w i (v.map (phaseMul z)) = distOfAmps w i v
  | _, [] => rfl
  | i, a :: v => by
    simp only [List.map_cons, distOfAmps, normSq_phaseMul, hz, one_mul]
    rw [distOfAmps_map_phase w z hz (i + 1) v]

lemma distOfAmps_getD (w : ℕ) :
    ∀ (v : List (ℚ × ℚ)) (k i : ℕ), i < v.length →
      (distOfAmps w k v).getD i ("", 0) = (toBitstring w (k + i), normSq (v.getD i (0, 0)))
  | [], _, i, h => absurd h (by simp)
  | a :: v, k, 0, _ => by simp [distOfAmps]
  | a :: v, k, i + 1, h => by
    have := distOfAmps_getD w v (k + 1) i (by simpa using Nat.lt_of_succ_lt_succ h)
    simpa [distOfAmps, List.getD_cons_succ, Nat.add_assoc, Nat.add_comm 1 i] using this

/-- C9: amplitude vectors differing only by a global phase factor produce
identical probability distributions through the Distribution Source Adapter,
and each produced probability is the squared magnitude of the corresponding
basis-state amplitude. -/
theorem adapter_global_phase_irrelevant (w : ℕ) (v : List (ℚ × ℚ)) (z : ℚ × ℚ)
    (hz : normSq z = 1) :
    amplitudesToDist w (v.map (phaseMul z)) = amplitudesToDist w v ∧
      (∀ d, amplitudesToDist w v = .ok d →
        ∀ i, i < v.length → d.getD i ("", 0) = (toBitstring w i, normSq (v.getD i (0, 0)))) := by
  constructor
  · rw [amplitudesToDist, amplitudesToDist, List.length_map,
      distOfAmps_map_phase w z hz 0 v]
  · intro d hd i hi
    rw [amplitudesToDist] at hd
    by_cases hlen : v.length = 2^w
    · rw [if_pos hlen] at hd
      cases hd
      simpa using distOfAmps_getD w v 0 i hi
    · rw [if_neg hlen] at hd
      cases hd

/-- Witness for C9: multiplying a width-1 amplitude vector by the phase
factor i (as the pair (0, 1)) leaves the adapter output unchanged. -/
theorem adapter_global_phase_irrelevant_witness :
    amplitudesToDist 1 ([((1 : ℚ), (0 : ℚ)), (0, 0)].map (phaseMul (0, 1))) =
        amplitudesToDist 1 [((1 : ℚ), (0 : ℚ)), (0, 0)] ∧
      (∀ d, amplitudesToDist 1 [((1 : ℚ), (0 : ℚ)), (0, 0)] = .ok d →
        ∀ i, i < ([((1 : ℚ), (0 : ℚ)), (0, 0)] : List (ℚ × ℚ)).length →
          d.getD i ("", 0) =
            (toBitstring 1 i, normSq (([((1 : ℚ), (0 : ℚ)), (0, 0)] : List (ℚ × ℚ)).getD i (0, 0)))) :=
  adapter_global_phase_irrelevant 1 [((1 : ℚ), (0 : ℚ)), (0, 0)] (0, 1) (by norm_num [normSq])

/-- Qubit subsets of the QV run, from the source script. -/
def qubit_lists : List (List ℕ) :=
  [[0, 1, 3], [0, 1, 3, 5], [0, 1, 3, 5, 7], [0, 1, 3, 5, 7, 10]]

/-- Number of random trials per width, from the source script. -/
def ntrials : ℕ := 50

/-- All (width_index, trial_index) keys of a run. -/
def trialKeys (nw nt : ℕ) : List (ℕ × ℕ) :=
  (List.range nw).flatMap (fun w => (List.range nt).map (fun t => (w, t)))

/-- Loading the ideal statevector results: registers the heavy set of every
(width_index, trial_index) key, in one pass over all keys. -/
def add_statevectors (nw nt : ℕ) (hsOf : ℕ → ℕ → List String) (st : QVState) :
    Except QVError QVState :=
  (trialKeys nw nt).foldlM (fun s k => add_ideal k.1 k.2 (hsOf k.1 k.2) false s) st

/-- Loading the experimental results: aggregates the count histogram of every
(width_index, trial_index) key, in one pass over all keys. -/
def add_data (nw nt : ℕ) (countsOf : ℕ → ℕ → List (String × ℕ)) (st : QVState) :
    Except QVError QVState :=
  (trialKeys nw nt).foldlM (fun s k => add_experimental k.1 k.2 (countsOf k.1 k.2) s) st

/-- The single straight-line execution path of the source script: a fresh
fitter, then `add_statevectors` for all trials, then `add_data` for all
trials. -/
def mainRun (hsOf : ℕ → ℕ → List String) (countsOf : ℕ → ℕ → List (String × ℕ)) :
    Except QVError QVState :=
  add_statevectors qubit_lists.length ntrials hsOf initState >>=
    add_data qubit_lists.length ntrials countsOf

lemma mem_trialKeys {nw nt w t : ℕ} :
    (w, t) ∈ trialKeys nw nt ↔ w < nw ∧ t < nt := by
  simp [trialKeys, List.mem_flatMap, List.mem_map, List.mem_range]

lemma trialKeys_nodup (nw nt : ℕ) : (trialKeys nw nt).Nodup := by
  rw [trialKeys, List.nodup_flatMap]
  constructor
  · intro w _
    exact (List.nodup_range nt).map (fun a b hab => by
      simpa using congrArg Prod.snd hab)
  · have hpw := List.pairwise_lt_range nw
    refine hpw.imp ?_
    intro a b hab
    intro p hpa hpb
    rcases List.mem_map.mp hpa with ⟨t₁, _, h₁⟩
    rcases List.mem_map.mp hpb with ⟨t₂, _, h₂⟩
    have : a = b := by
      have ha := congrArg Prod.fst h₁
      have hb := congrArg Prod.fst h₂
      simp at ha hb
      rw [ha, hb]
    omega

lemma add_ideal_fold_ok (hsOf : ℕ → ℕ → List String) :
    ∀ (ks : List (ℕ × ℕ)) (st : QVState), ks.Nodup →
      (∀ k ∈ ks, st.heavySets k.1 k.2 = none) →
      ∃ st₁, ks.foldlM (fun s k => add_ideal k.1 k.2 (hsOf k.1 k.2) false s) st = .ok st₁ ∧
        ∀ w t, st₁.heavySets w t =
          if (w, t) ∈ ks then some (hsOf w t) else st.heavySets w t := by
  intro ks
  induction ks with
  | nil =>
    intro st _ _
    exact ⟨st, rfl, fun w t => by simp⟩
  | cons k ks ih =>
    intro st hnd hnone
    have hk : st.heavySets k.1 k.2 = none := hnone k (List.mem_cons_self k ks)
    have hstep : add_ideal k.1 k.2 (hsOf k.1 k.2) false st =
        .ok { st with heavySets := fun a b =>
          if a = k.1 ∧ b = k.2 then some (hsOf k.1 k.2) else st.heavySets a b } := by
      rw [add_ideal, hk]
    have hknotin : k ∉ ks := (List.nodup_cons.mp hnd).1
    have hrest : ∀ k₁ ∈ ks,
        ({ st with heavySets := fun a b =>
          if a = k.1 ∧ b = k.2 then some (hsOf k.1 k.2) else st.heavySets a b } : QVState).heavySets k₁.1 k₁.2 = none := by
      intro k₁ hk₁
      have hne : k₁ ≠ k := fun h => hknotin (h ▸ hk₁)
      have : ¬(k₁.1 = k.1 ∧ k₁.2 = k.2) := by
        rintro ⟨h1, h2⟩
        exact hne (Prod.ext h1 h2)
      simp only [if_neg this]
      exact hnone k₁ (List.mem_cons_of_mem k hk₁)
    rcases ih _ (List.nodup_cons.mp hnd).2 hrest with ⟨st₁, hfold, hpost⟩
    refine ⟨st₁, ?_, ?_⟩
    · rw [List.foldlM_cons, hstep]
      simpa using hfold
    · intro w t
      rw [hpost w t]
      by_cases hmem : (w, t) ∈ ks
      · rw [if_pos hmem, if_pos (List.mem_cons_of_mem k hmem)]
      · rw [if_neg hmem]
        by_cases hhd : (w, t) = k
        · rw [if_pos (hhd ▸ List.mem_cons_self k ks)]
          have h1 : w = k.1 := congrArg Prod.fst hhd
          have h2 : t = k.2 := congrArg Prod.snd hhd
          rw [h1, h2]
          simp
        · rw [if_neg (by
            intro h
            rcases List.mem_cons.mp h with h₁ | h₁
            · exact hhd h₁
            · exact hmem h₁)]
          have : ¬(w = k.1 ∧ t = k.2) := by
            rintro ⟨h1, h2⟩
            exact hhd (Prod.ext h1 h2)
          simp only [if_neg this]

lemma add_experimental_heavySets_eq (w t : ℕ) (counts : List (String × ℕ))
    (st st₁ : QVState) (h : add_experimental w t counts st = .ok st₁) :
    st₁.heavySets = st.heavySets := by
  rw [add_experimental] at h
  cases hreg : st.heavySets w t with
  | none => rw [hreg] at h; cases h
  | some hs =>
    rw [hreg] at h
    cases h
    rfl

lemma add_exp_fold_ok (countsOf : ℕ → ℕ → List (String × ℕ)) :
    ∀ (ks : List (ℕ × ℕ)) (st : QVState),
      (∀ k ∈ ks, st.heavySets k.1 k.2 ≠ none) →
      ∃ st₂, ks.foldlM (fun s k => add_experimental k.1 k.2 (countsOf k.1 k.2) s) st = .ok st₂ := by
  intro ks
  induction ks with
  | nil =>
    intro st _
    exact ⟨st, rfl⟩
  | cons k ks ih =>
    intro st hreg
    cases hk : st.heavySets k.1 k.2 with
    | none => exact absurd hk (hreg k (List.mem_cons_self k ks))
    | some hs =>
      have hstep : add_experimental k.1 k.2 (countsOf k.1 k.2) st =
          .ok { st with
            heavyCount := fun a => if a = k.1 then st.heavyCount k.1 + countsHeavy hs (countsOf k.1 k.2) else st.heavyCount a
            totalCount := fun a => if a = k.1 then st.totalCount k.1 + countsTotal (countsOf k.1 k.2) else st.totalCount a
            trialCount := fun a => if a = k.1 then st.trialCount k.1 + 1 else st.trialCount a } := by
        rw [add_experimental, hk]
      have hrest : ∀ k₁ ∈ ks,
          ({ st with
            heavyCount := fun a => if a = k.1 then st.heavyCount k.1 + countsHeavy hs (countsOf k.1 k.2) else st.heavyCount a
            totalCount := fun a => if a = k.1 then st.totalCount k.1 + countsTotal (countsOf k.1 k.2) else st.totalCount a
            trialCount := fun a => if a = k.1 then st.trialCount k.1 + 1 else st.trialCount a } : QVState).heavySets k₁.1 k₁.2 ≠ none := by
        intro k₁ hk₁
        exact hreg k₁ (List.mem_cons_of_mem k hk₁)
      rcases ih _ hrest with ⟨st₂, hfold⟩
      refine ⟨st₂, ?_⟩
      rw [List.foldlM_cons, hstep]
      simpa using hfold

/-- C10: on the source script's single straight-line path the ideal
statevector results of all widths and trials are loaded before any
experimental result, so every (width, trial) key has its heavy set
registered when `add_data` runs, the missing-ideal-data branch is
unreachable, and the whole run succeeds. -/
theorem straight_line_no_missing_ideal
    (hsOf : ℕ → ℕ → List String) (countsOf : ℕ → ℕ → List (String × ℕ)) :
    ∃ st₁ st₂,
      add_statevectors qubit_lists.length ntrials hsOf initState = .ok st₁ ∧
      (∀ w t, w < qubit_lists.length → t < ntrials →
        st₁.heavySets w t = some (hsOf w t)) ∧
      add_data qubit_lists.length ntrials countsOf st₁ = .ok st₂ ∧
      mainRun hsOf countsOf = .ok st₂ := by
  rcases add_ideal_fold_ok hsOf (trialKeys qubit_lists.length ntrials) initState
      (trialKeys_nodup _ _) (fun _ _ => rfl) with ⟨st₁, hfold₁, hpost₁⟩
  have hreg : ∀ w t, w < qubit_lists.length → t < ntrials →
      st₁.heavySets w t = some (hsOf w t) := by
    intro w t hw ht
    rw [hpost₁ w t, if_pos (mem_trialKeys.mpr ⟨hw, ht⟩)]
  rcases add_exp_fold_ok countsOf (trialKeys qubit_lists.length ntrials) st₁
      (by
        intro k hk
        rcases k with ⟨a, b⟩
        rcases mem_trialKeys.mp hk with ⟨hw, ht⟩
        rw [hreg a b hw ht]
        simp) with ⟨st₂, hfold₂⟩
  refine ⟨st₁, st₂, hfold₁, hreg, hfold₂, ?_⟩
  rw [mainRun, add_statevectors] at *
  rw [hfold₁]
  simpa [add_data] using hfold₂

end QV
